import Mathlib

/-
  Shallow embedding of the kl4mm/bplustree B+tree engine
  (src/src/slot.rs, src/src/node.rs, src/src/btree.rs).

  Modelling choices:
  * Raw pointers (`*mut Node<K, V>`) become indices into an explicit heap,
    a `List (Node V)`; `Box::into_raw` appends a node and returns its index;
    a nullable raw pointer is `Option Nat` with `none` for `null_mut()`.
  * The key type `K` is instantiated at `Nat`; the `Increment` trait constant
    `K::MAX` becomes an explicit parameter `kmax`, and `Increment::next`
    (`self + 1`) becomes `Nat` successor.  All concrete inputs used below keep
    keys at or under `kmax = 255` (modelling `u8`) and never apply `next` to
    `kmax`, so wrap/overflow of the Rust integer never matters on them.
  * `BTreeSet<Slot<K, V>>` (ordered by `Slot`'s `Ord`, which compares keys
    only) becomes a key-sorted duplicate-free `List (Slot Nat V)` with the
    set operations (`insert`, `replace`, `remove`, `get`, `split_off`,
    `first`, `last`, `iter().nth`, `iter().find`) spelled out below.
  * Panics (`unreachable!`, `expect`, `unwrap`, failed `assert!`, null or
    dangling dereference) are the `Res.panic` outcome; recursion through the
    heap is fuel-limited, exhaustion being the separate outcome `Res.fuelOut`
    so that a proved panic is never a fuel artefact.
-/

namespace BPlus

/-- Ptr is a heap index standing for a non-null `*mut Node`. -/
abbrev Ptr := Nat

/-- RawPtr models a possibly-null `*mut Node`; `none` is `ptr::null_mut()`. -/
abbrev RawPtr := Option Ptr

/-- Either mirrors `slot.rs`'s two-variant enum. -/
inductive Either (A B : Type) where
  | left (a : A)
  | right (b : B)
deriving DecidableEq, Repr

/-- Slot mirrors `Slot<A, B>(A, Either<B, *mut Node<A, B>>)` from `slot.rs`,
with the pointer component modelled as a `RawPtr`.  The first field is the
key, the second the payload. -/
structure Slot (B : Type) where
  k : Nat
  payload : Either B RawPtr
deriving DecidableEq, Repr

/-- cmp mirrors the `Ord` impl of `slot.rs`: `self.0.cmp(&other.0)`,
comparing keys only. -/
def Slot.cmp {B : Type} (s t : Slot B) : Ordering :=
  compare s.k t.k

/-- beq mirrors the `#[derive(PartialEq)]` on `Slot`, which is field-wise
structural equality: key and payload both. -/
def Slot.beq {B : Type} [DecidableEq B] (s t : Slot B) : Bool :=
  decide (s = t)

/-- new_leaf mirrors `Slot::new_leaf`. -/
def Slot.new_leaf {B : Type} (a : Nat) (b : B) : Slot B :=
  ⟨a, .left b⟩

/-- new_internal mirrors `Slot::new_internal`. -/
def Slot.new_internal {B : Type} (a : Nat) (p : RawPtr) : Slot B :=
  ⟨a, .right p⟩

/-- is_leaf mirrors `Slot::is_leaf`. -/
def Slot.is_leaf {B : Type} (s : Slot B) : Bool :=
  match s.payload with
  | .left _ => true
  | .right _ => false

/-- NodeType mirrors `node.rs`'s enum. -/
inductive NodeType where
  | internal
  | leaf
deriving DecidableEq, Repr

/-- Node mirrors `Node<K, V>` from `node.rs` at `K = Nat`:
tag, ordered slot set (as a sorted list), leaf sibling pointer,
capacity bound and root flag. -/
structure Node (V : Type) where
  t : NodeType
  values : List (Slot V)
  next : RawPtr
  max : Nat
  is_root : Bool
deriving DecidableEq, Repr

/-- Heap is the explicit store of every allocated node; a `Ptr` indexes it. -/
abbrev Heap (V : Type) := List (Node V)

/-- Res is the outcome of running a fallible, fuel-limited operation:
`ok`, a Rust panic, or fuel exhaustion (never a behaviour of the Rust code;
kept distinct so panic proofs are not fuel artefacts). -/
inductive Res (A : Type) where
  | ok (a : A)
  | panic
  | fuelOut
deriving DecidableEq, Repr

/-- bind sequences two fallible steps, propagating panic and fuel-out. -/
def Res.bind {A B : Type} (r : Res A) (f : A → Res B) : Res B :=
  match r with
  | .ok a => f a
  | .panic => .panic
  | .fuelOut => .fuelOut

instance : Monad Res where
  pure := Res.ok
  bind := Res.bind

section SetOps

variable {V : Type}

/-- setInsert mirrors `BTreeSet::insert` on a key-sorted list: the slot is
added only when no slot with an `Ord`-equal key (key equality) is present. -/
def setInsert : List (Slot V) → Slot V → List (Slot V)
  | [], s => [s]
  | x :: xs, s =>
    if s.k < x.k then s :: x :: xs
    else if s.k = x.k then x :: xs
    else x :: setInsert xs s

/-- setReplace mirrors `BTreeSet::replace`: insert-or-overwrite by key,
returning the evicted slot when a key-equal slot was present. -/
def setReplace : List (Slot V) → Slot V → List (Slot V) × Option (Slot V)
  | [], s => ([s], none)
  | x :: xs, s =>
    if s.k < x.k then (s :: x :: xs, none)
    else if s.k = x.k then (s :: xs, some x)
    else
      let r := setReplace xs s
      (x :: r.1, r.2)

/-- setRemove mirrors `BTreeSet::remove` keyed by `Ord`: drop the slot with
the given key, reporting whether one was present. -/
def setRemove : List (Slot V) → Nat → List (Slot V) × Bool
  | [], _ => ([], false)
  | x :: xs, key =>
    if x.k = key then (xs, true)
    else
      let r := setRemove xs key
      (x :: r.1, r.2)

/-- setGet mirrors `BTreeSet::get` keyed by `Ord`: return the stored slot
whose key equals the probe's key. -/
def setGet (vs : List (Slot V)) (key : Nat) : Option (Slot V) :=
  vs.find? (fun s => s.k == key)

/-- setSplitOff mirrors `BTreeSet::split_off(&mid)` on a sorted set:
the original keeps the slots with keys below `mid`, the result holds the
slots with keys at or above `mid`.  First component: kept; second: moved. -/
def setSplitOff (vs : List (Slot V)) (key : Nat) :
    List (Slot V) × List (Slot V) :=
  (vs.filter (fun s => s.k < key), vs.filter (fun s => ¬ s.k < key))

end SetOps

section NodeOps

variable {V : Type}

/-- new_leaf mirrors `Node::new_leaf`. -/
def Node.new_leaf (max : Nat) : Node V :=
  ⟨.leaf, [], none, max, false⟩

/-- new_internal mirrors `Node::new_internal`. -/
def Node.new_internal (max : Nat) : Node V :=
  ⟨.internal, [], none, max, false⟩

/-- is_leaf mirrors `Node::is_leaf`. -/
def Node.is_leaf (n : Node V) : Bool :=
  n.t == .leaf

/-- almost_full mirrors `Node::almost_full`: `values.len() >= max / 2`. -/
def Node.almost_full (n : Node V) : Bool :=
  decide (n.values.length ≥ n.max / 2)

/-- last_k mirrors `Node::last_k`. -/
def Node.last_k (n : Node V) : Option Nat :=
  n.values.getLast?.map (fun s => s.k)

/-- first mirrors `Node::first`. -/
def Node.first (n : Node V) : Option (Slot V) :=
  n.values.head?

/-- readIdx models `unsafe { &*raw }` on a non-null pointer: a dangling
index is undefined behaviour, modelled as a panic. -/
def readIdx (h : Heap V) (p : Ptr) : Res (Node V) :=
  match h[p]? with
  | some n => .ok n
  | none => .panic

/-- writeIdx models a store through a `&mut` obtained from a pointer. -/
def writeIdx (h : Heap V) (p : Ptr) (n : Node V) : Heap V :=
  h.set p n

/-- derefP models `unsafe { &*raw }` on a nullable pointer: dereferencing
null is undefined behaviour, modelled as a panic. -/
def derefP (rp : RawPtr) : Res Ptr :=
  match rp with
  | none => .panic
  | some p => .ok p

/-- getRight mirrors the `get_right!` macro (from `lib.rs`, used by
`node.rs`/`btree.rs`): the pointer payload, `unreachable!` on a value. -/
def getRight (e : Either V RawPtr) : Res RawPtr :=
  match e with
  | .left _ => .panic
  | .right r => .ok r

/-- getLeft mirrors the `get_left!` macro: the value payload,
`unreachable!` on a pointer. -/
def getLeft (e : Either V RawPtr) : Res V :=
  match e with
  | .left v => .ok v
  | .right _ => .panic

/-- split mirrors `Node::split`: pick the median slot (index `len / 2`,
`expect`ing it to exist), move the slots at or above it into a newly
allocated sibling of the same kind, and for leaves splice the sibling into
the chain right after `self`.  Returns the updated heap and the sibling's
pointer. -/
def Node.split (h : Heap V) (p : Ptr) : Res (Heap V × Ptr) :=
  Res.bind (readIdx h p) fun node =>
  match node.values[node.values.length / 2]? with
  | none => .panic
  | some mid =>
    let parts := setSplitOff node.values mid.k
    let gtp := h.length
    let gtNode : Node V :=
      ⟨node.t, parts.2, if node.is_leaf then node.next else none,
        node.max, false⟩
    let lower : Node V :=
      { node with
          values := parts.1
          next := if node.is_leaf then some gtp else node.next }
    .ok (writeIdx h p lower ++ [gtNode], gtp)

/-- get_separator mirrors `Node::get_separator(ptr, other)`: when `other`
is a freshly split-off sibling, build the slot `(other's first key, ptr)`
for the original node — `unwrap`ping the sibling's first slot — and return
it together with the sibling's pointer. -/
def Node.get_separator (h : Heap V) (p : Ptr) (other : Option Ptr) :
    Res (Option (Slot V × Ptr)) :=
  match other with
  | none => .ok none
  | some op =>
    Res.bind (readIdx h op) fun onode =>
    match onode.values.head? with
    | none => .panic
    | some s => .ok (some (Slot.new_internal s.k (some p), op))

/-- find_child mirrors `Node::find_child`: `None` for leaves, otherwise the
pointer of the first slot whose key is strictly greater than the probe's
key (`get_right!` panicking on a value payload), `None` when no such slot
exists. -/
def Node.find_child (n : Node V) (value : Slot V) : Res (Option RawPtr) :=
  if n.is_leaf then .ok none
  else
    match n.values.find? (fun s => value.k < s.k) with
    | none => .ok none
    | some s =>
      match s.payload with
      | .left _ => .panic
      | .right r => .ok (some r)

end NodeOps

section TreeOps

variable {V : Type}

/-- BTreeS mirrors `BTree<K, V>` (`root` and `max`) together with the heap
the Rust program keeps implicitly behind its raw pointers. -/
structure BTreeS (V : Type) where
  heap : Heap V
  root : RawPtr
  max : Nat
deriving DecidableEq, Repr

/-- new mirrors `BTree::new`: null root, empty heap. -/
def BTree.new (max : Nat) : BTreeS V :=
  ⟨[], none, max⟩

/-- findRightEq mirrors `node.values.iter().find(|s| get_right!(s) == ptr)`
from the separator-repair code: scan the slots in key order for the first
one whose pointer payload equals `newp`, `get_right!` panicking if a value
payload is encountered first. -/
def findRightEq : List (Slot V) → Ptr → Res (Option (Slot V))
  | [], _ => .ok none
  | s :: ss, newp =>
    match s.payload with
    | .left _ => .panic
    | .right r =>
      if r = some newp then .ok (some s) else findRightEq ss newp

/-- repair mirrors the separator-repair block that appears verbatim both in
`BTree::insert` (root growth, btree.rs lines 93–114) and in `BTree::_insert`
(lines 210–230).  Given the current slot list `vs` of the node being
repaired and the pointer `newp` of the freshly created sibling: if some
slot already points at `newp`, re-replace it under the same key; otherwise
replace in a slot `(K::MAX, newp)`, and if that evicted an old `K::MAX`
slot, re-insert a separator for the evicted (displaced) child keyed by its
last key — incremented by one step when the child is a leaf.  A slot
evicted by that final replace is the logged `SLOT DISAPPEARING`. -/
def repair (kmax : Nat) (h : Heap V) (vs : List (Slot V)) (newp : Ptr) :
    Res (List (Slot V)) :=
  Res.bind (findRightEq vs newp) fun found =>
  match found with
  | some s => .ok (setReplace vs (Slot.new_internal s.k (some newp))).1
  | none =>
    let r := setReplace vs (Slot.new_internal kmax (some newp))
    match r.2 with
    | none => .ok r.1
    | some ev =>
      Res.bind (getRight ev.payload) fun evRaw =>
      Res.bind (derefP evRaw) fun dp =>
      Res.bind (readIdx h dp) fun dis =>
      match dis.values.getLast? with
      | none => .panic
      | some ls =>
        let key := if dis.is_leaf then ls.k + 1 else ls.k
        .ok (setReplace r.1 (Slot.new_internal key (some dp))).1

/-- insertAux mirrors `BTree::_insert`, fuel-limited.  Pre-emptively split
an almost-full node, continue in the sibling when the entry's key is at or
past the lower half's last key, descend via `find_child` (the commented-out
new-child branch being `unreachable!`), upsert at a leaf, repair separators
after a reported child split, and report this node's own split (as
`Node::get_separator` of the original pointer) to the caller. -/
def insertAux (kmax : Nat) : Nat → Heap V → Ptr → Slot V →
    Res (Heap V × Option (Slot V × Ptr))
  | 0, _, _, _ => .fuelOut
  | fuel + 1, h, p, value =>
    Res.bind (readIdx h p) fun node =>
    Res.bind
      (if node.almost_full then
        Res.bind (Node.split h p) fun sp =>
        Res.bind (readIdx sp.1 p) fun lower =>
        match lower.last_k with
        | none => .panic
        | some last =>
          .ok (sp.1, some sp.2, if last ≤ value.k then sp.2 else p)
      else .ok (h, none, p)) fun pre =>
    Res.bind (readIdx pre.1 pre.2.2) fun cur =>
    Res.bind (cur.find_child value) fun fc =>
    match fc with
    | none =>
      if cur.is_leaf then
        let h2 := writeIdx pre.1 pre.2.2
          { cur with values := (setReplace cur.values value).1 }
        Res.bind (Node.get_separator h2 p pre.2.1) fun sep =>
        .ok (h2, sep)
      else .panic
    | some raw =>
      Res.bind (derefP raw) fun cp =>
      Res.bind (insertAux kmax fuel pre.1 cp value) fun res =>
      Res.bind
        (match res.2 with
        | none => .ok res.1
        | some sn =>
          Res.bind (readIdx res.1 pre.2.2) fun cur2 =>
          let vs1 := (setReplace cur2.values sn.1).1
          let h3 := writeIdx res.1 pre.2.2 { cur2 with values := vs1 }
          Res.bind (repair kmax h3 vs1 sn.2) fun vs2 =>
          .ok (writeIdx h3 pre.2.2 { cur2 with values := vs2 })) fun h4 =>
      Res.bind (Node.get_separator h4 p pre.2.1) fun sep =>
      .ok (h4, sep)

/-- insert mirrors `BTree::insert`: assert the entry is a leaf slot,
allocate a leaf root for an empty tree, run the recursive insert, and on a
reported root split demote the old root and build a new internal root from
the returned separator via the same repair block. -/
def BTree.insert (kmax fuel : Nat) (t : BTreeS V) (entry : Slot V) :
    Res (BTreeS V) :=
  if entry.is_leaf = false then .panic
  else
    let hr : Heap V × Ptr :=
      match t.root with
      | some rp => (t.heap, rp)
      | none =>
        (t.heap ++ [{ Node.new_leaf t.max with is_root := true }],
          t.heap.length)
    Res.bind (insertAux kmax fuel hr.1 hr.2 entry) fun res =>
    match res.2 with
    | none => .ok ⟨res.1, some hr.2, t.max⟩
    | some sn =>
      Res.bind (getRight sn.1.payload) fun sRaw =>
      if sRaw ≠ some hr.2 then .panic
      else
        Res.bind (readIdx res.1 hr.2) fun oldRoot =>
        let h2 := writeIdx res.1 hr.2 { oldRoot with is_root := false }
        Res.bind (repair kmax h2 (setReplace [] sn.1).1 sn.2) fun vs =>
        let newRoot : Node V := ⟨.internal, vs, none, t.max, true⟩
        .ok ⟨h2 ++ [newRoot], some h2.length, t.max⟩

/-- getAux mirrors `BTree::_get`, fuel-limited: descend via `find_child`;
at a leaf look up the stored slot by key; `None` when an internal node has
no routing child. -/
def getAux : Nat → Heap V → Ptr → Slot V → Res (Option (Slot V))
  | 0, _, _, _ => .fuelOut
  | fuel + 1, h, p, slot =>
    Res.bind (readIdx h p) fun node =>
    Res.bind (node.find_child slot) fun fc =>
    match fc with
    | some raw =>
      Res.bind (derefP raw) fun cp =>
      getAux fuel h cp slot
    | none =>
      if node.is_leaf then .ok (setGet node.values slot.k) else .ok none

/-- get mirrors `BTree::get`: `None` on a null root, otherwise descend with
a null-pointer internal probe slot. -/
def BTree.get (fuel : Nat) (t : BTreeS V) (key : Nat) :
    Res (Option (Slot V)) :=
  match t.root with
  | none => .ok none
  | some rp => getAux fuel t.heap rp (Slot.new_internal key none)

/-- deleteAux mirrors `BTree::_delete`, fuel-limited: descend via
`find_child`; at a leaf remove by key and report whether a slot was
removed; `false` when an internal node has no routing child. -/
def deleteAux : Nat → Heap V → Ptr → Slot V → Res (Heap V × Bool)
  | 0, _, _, _ => .fuelOut
  | fuel + 1, h, p, slot =>
    Res.bind (readIdx h p) fun node =>
    Res.bind (node.find_child slot) fun fc =>
    match fc with
    | some raw =>
      Res.bind (derefP raw) fun cp =>
      deleteAux fuel h cp slot
    | none =>
      if node.is_leaf then
        let r := setRemove node.values slot.k
        .ok (writeIdx h p { node with values := r.1 }, r.2)
      else .ok (h, false)

/-- delete mirrors `BTree::delete`: `false` on a null root, otherwise
descend with a null-pointer internal probe slot. -/
def BTree.delete (fuel : Nat) (t : BTreeS V) (key : Nat) :
    Res (BTreeS V × Bool) :=
  match t.root with
  | none => .ok (t, false)
  | some rp =>
    Res.bind (deleteAux fuel t.heap rp (Slot.new_internal key none)) fun r =>
    .ok (⟨r.1, t.root, t.max⟩, r.2)

/-- get_leftmost_leaf mirrors `BTree::get_leftmost_leaf`: descend through
each internal node's first slot; null when an internal node is empty. -/
def get_leftmost_leaf : Nat → Heap V → Ptr → Res RawPtr
  | 0, _, _ => .fuelOut
  | fuel + 1, h, p =>
    Res.bind (readIdx h p) fun node =>
    if node.is_leaf then .ok (some p)
    else
      match node.first with
      | none => .ok none
      | some slot =>
        Res.bind (getRight slot.payload) fun raw =>
        Res.bind (derefP raw) fun cp =>
        get_leftmost_leaf fuel h cp

/-- chainPairs mirrors the scan loop of the repository's test: walk the
leaf sibling chain from a starting pointer, collecting every slot's
`(key, get_left!(payload))` pair in node order. -/
def chainPairs : Nat → Heap V → RawPtr → Res (List (Nat × V))
  | 0, _, _ => .fuelOut
  | fuel + 1, h, cur =>
    match cur with
    | none => .ok []
    | some p =>
      Res.bind (readIdx h p) fun node =>
      Res.bind
        (node.values.mapM (fun s =>
          Res.bind (getLeft s.payload) fun v => .ok (s.k, v))) fun pairs =>
      Res.bind (chainPairs fuel h node.next) fun rest =>
      .ok (pairs ++ rest)

/-- scan models `Tree::scan()` as the spec and the repository's test
perform it: locate the leftmost leaf from the root, then walk the sibling
chain; the empty sequence on an empty tree. -/
def BTree.scan (fuel : Nat) (t : BTreeS V) : Res (List (Nat × V)) :=
  match t.root with
  | none => .ok []
  | some rp =>
    Res.bind (get_leftmost_leaf fuel t.heap rp) fun lm =>
    chainPairs fuel t.heap lm

/-- runInserts folds `BTree::insert` over a list of `(key, value)` pairs on
a fresh tree, with ample fuel for the small concrete inputs used below;
any panic aborts the run as it would abort the Rust process. -/
def runInserts (kmax max : Nat) (l : List (Nat × V)) : Res (BTreeS V) :=
  l.foldlM (fun t kv => BTree.insert kmax 100 t (Slot.new_leaf kv.1 kv.2))
    (BPlus.BTree.new max)

/-- leafKeyCount counts, across every leaf node of the heap, the slots
carrying the given key — the tree-wide occurrence count of a key. -/
def leafKeyCount (t : BTreeS V) (key : Nat) : Nat :=
  (t.heap.filter Node.is_leaf).foldl
    (fun acc n => acc + (n.values.filter (fun s => s.k == key)).length) 0

/-- nodeKindOk states the kind-consistency of a single node: a leaf stores
only value slots, an internal node only child-pointer slots. -/
def nodeKindOk (n : Node V) : Prop :=
  (n.t = .leaf → ∀ s ∈ n.values, s.is_leaf = true) ∧
  (n.t = .internal → ∀ s ∈ n.values, s.is_leaf = false)

/-- kindOk states kind-consistency for every node of the heap. -/
def kindOk (h : Heap V) : Prop :=
  ∀ n ∈ h, nodeKindOk n

/-- typesStable relates two heaps when the second extends the first and no
existing node has changed its Leaf/Internal tag (the tag is immutable after
creation in the source). -/
def typesStable (h h2 : Heap V) : Prop :=
  h.length ≤ h2.length ∧
    ∀ (i : Nat) (n n2 : Node V),
      h[i]? = some n → h2[i]? = some n2 → n2.t = n.t

end TreeOps

section ResLemmas

@[simp]
theorem Res.bind_ok {A B : Type} (a : A) (f : A → Res B) :
    Res.bind (.ok a) f = f a := rfl

@[simp]
theorem Res.bind_panic {A B : Type} (f : A → Res B) :
    Res.bind (.panic : Res A) f = .panic := rfl

@[simp]
theorem Res.bind_fuelOut {A B : Type} (f : A → Res B) :
    Res.bind (.fuelOut : Res A) f = .fuelOut := rfl

theorem Res.bind_eq_ok {A B : Type} {r : Res A} {f : A → Res B} {b : B} :
    Res.bind r f = .ok b ↔ ∃ a, r = .ok a ∧ f a = .ok b := by
  cases r <;> simp [Res.bind]

end ResLemmas

section SetLemmas

variable {V : Type}

theorem setReplace_mem {vs : List (Slot V)} {s x : Slot V}
    (hx : x ∈ (setReplace vs s).1) : x = s ∨ x ∈ vs := by
  induction vs with
  | nil =>
    simp only [setReplace] at hx
    simp at hx
    exact Or.inl hx
  | cons y ys ih =>
    simp only [setReplace] at hx
    by_cases h1 : s.k < y.k
    · simp [h1] at hx
      rcases hx with h | h | h
      · exact Or.inl h
      · exact Or.inr (by simp [h])
      · exact Or.inr (by simp [h])
    · by_cases h2 : s.k = y.k
      · simp [h1, h2] at hx
        rcases hx with h | h
        · exact Or.inl h
        · exact Or.inr (by simp [h])
      · simp [h1, h2] at hx
        rcases hx with h | h
        · exact Or.inr (by simp [h])
        · rcases ih h with h3 | h3
          · exact Or.inl h3
          · exact Or.inr (by simp [h3])

theorem setReplace_evict_mem {vs : List (Slot V)} {s x : Slot V}
    (hx : (setReplace vs s).2 = some x) : x ∈ vs := by
  induction vs with
  | nil => simp [setReplace] at hx
  | cons y ys ih =>
    simp only [setReplace] at hx
    by_cases h1 : s.k < y.k
    · simp [h1] at hx
    · by_cases h2 : s.k = y.k
      · simp [h1, h2] at hx
        simp [hx]
      · simp [h1, h2] at hx
        exact List.mem_cons_of_mem y (ih hx)

theorem setRemove_subset {vs : List (Slot V)} {key : Nat} {x : Slot V}
    (hx : x ∈ (setRemove vs key).1) : x ∈ vs := by
  induction vs with
  | nil => simp [setRemove] at hx
  | cons y ys ih =>
    simp only [setRemove] at hx
    by_cases h1 : y.k = key
    · simp [h1] at hx
      exact List.mem_cons_of_mem y hx
    · simp [h1] at hx
      rcases hx with h | h
      · simp [h]
      · exact List.mem_cons_of_mem y (ih h)

theorem setGet_mem {vs : List (Slot V)} {key : Nat} {s : Slot V}
    (hs : setGet vs key = some s) : s ∈ vs :=
  List.mem_of_find?_eq_some hs

theorem setReplace_of_mem :
    ∀ (vs : List (Slot V)) (s x : Slot V),
      vs.Pairwise (fun a b => a.k < b.k) → x ∈ vs → x.k = s.k →
      (setReplace vs s).2 = some x ∧
        (setReplace vs s).1.length = vs.length
  | [], _, x, _, hmem, _ => absurd hmem (List.not_mem_nil x)
  | y :: ys, s, x, hpw, hmem, hk => by
    rcases List.pairwise_cons.mp hpw with ⟨hy, hys⟩
    by_cases h1 : s.k < y.k
    · exfalso
      rcases List.mem_cons.mp hmem with rfl | hx
      · omega
      · have h3 := hy x hx
        omega
    · by_cases h2 : s.k = y.k
      · have hxy : x = y := by
          rcases List.mem_cons.mp hmem with rfl | hx
          · rfl
          · have h3 := hy x hx
            exfalso
            omega
        subst hxy
        simp [setReplace, h1, h2]
      · have hx : x ∈ ys := by
          rcases List.mem_cons.mp hmem with rfl | hx
          · exfalso
            omega
          · exact hx
        have ih := setReplace_of_mem ys s x hys hx hk
        simp [setReplace, h1, h2, ih.1, ih.2]

end SetLemmas

section KindLemmas

variable {V : Type}

theorem is_leaf_iff {n : Node V} : n.is_leaf = true ↔ n.t = .leaf := by
  cases h : n.t <;> simp [Node.is_leaf, h]

theorem not_is_leaf_iff {n : Node V} : n.is_leaf = false ↔ n.t = .internal := by
  cases h : n.t <;> simp [Node.is_leaf, h]

theorem readIdx_mem {h : Heap V} {p : Ptr} {n : Node V}
    (hr : readIdx h p = .ok n) : n ∈ h := by
  unfold readIdx at hr
  cases hg : h[p]? with
  | none => simp [hg] at hr
  | some m =>
    simp [hg] at hr
    exact hr ▸ List.getElem?_mem hg

theorem readIdx_getElem {h : Heap V} {p : Ptr} {n : Node V}
    (hr : readIdx h p = .ok n) : h[p]? = some n := by
  unfold readIdx at hr
  cases hg : h[p]? with
  | none => simp [hg] at hr
  | some m => simp [hg] at hr; rw [hr]

theorem kindOk_of_read {h : Heap V} {p : Ptr} {n : Node V}
    (hk : kindOk h) (hr : readIdx h p = .ok n) : nodeKindOk n :=
  hk n (readIdx_mem hr)

theorem kindOk_set {h : Heap V} {p : Ptr} {n : Node V}
    (hk : kindOk h) (hn : nodeKindOk n) : kindOk (writeIdx h p n) := by
  intro m hm
  rcases List.mem_or_eq_of_mem_set hm with h1 | rfl
  · exact hk m h1
  · exact hn

theorem kindOk_append {h : Heap V} {n : Node V}
    (hk : kindOk h) (hn : nodeKindOk n) : kindOk (h ++ [n]) := by
  intro m hm
  rcases List.mem_append.mp hm with h1 | h1
  · exact hk m h1
  · rw [List.mem_singleton.mp h1]
    exact hn

theorem typesStable_refl (h : Heap V) : typesStable h h := by
  refine ⟨le_refl _, fun i n n2 h1 h2 => ?_⟩
  rw [h1] at h2
  exact (Option.some_injective _ h2) ▸ rfl

theorem typesStable_trans {h1 h2 h3 : Heap V}
    (a : typesStable h1 h2) (b : typesStable h2 h3) : typesStable h1 h3 := by
  refine ⟨a.1.trans b.1, fun i n n3 e1 e3 => ?_⟩
  have hi : i < h2.length :=
    lt_of_lt_of_le (List.getElem?_eq_some.mp e1).1 a.1
  have e2 : h2[i]? = some h2[i] := List.getElem?_eq_getElem hi
  rw [b.2 i _ n3 e2 e3]
  exact a.2 i n _ e1 e2

theorem typesStable_set {h : Heap V} {p : Ptr} {n old : Node V}
    (hold : h[p]? = some old) (ht : n.t = old.t) :
    typesStable h (writeIdx h p n) := by
  refine ⟨by simp [writeIdx], fun i m m2 e1 e2 => ?_⟩
  by_cases hip : p = i
  · subst hip
    have hlt : p < h.length := (List.getElem?_eq_some.mp hold).1
    rw [writeIdx, List.getElem?_set_eq_of_lt n hlt] at e2
    have hm : m = old := by
      rw [hold] at e1
      exact (Option.some_injective _ e1).symm
    have hn : m2 = n := (Option.some_injective _ e2).symm
    rw [hm, hn, ht]
  · rw [writeIdx, List.getElem?_set_ne hip] at e2
    rw [e1] at e2
    exact congrArg Node.t (Option.some_injective _ e2).symm

theorem typesStable_append (h : Heap V) (l : Heap V) :
    typesStable h (h ++ l) := by
  refine ⟨by simp, fun i n n2 e1 e2 => ?_⟩
  have hi : i < h.length := (List.getElem?_eq_some.mp e1).1
  rw [List.getElem?_append_left hi] at e2
  rw [e1] at e2
  exact congrArg Node.t (Option.some_injective _ e2).symm

theorem find_child_some_not_leaf {n : Node V} {v : Slot V} {raw : RawPtr}
    (hs : Node.find_child n v = .ok (some raw)) : n.is_leaf = false := by
  by_cases h : n.is_leaf
  · simp [Node.find_child, h] at hs
  · simpa using h

theorem split_preserves {h h2 : Heap V} {p q : Ptr}
    (hk : kindOk h) (hs : Node.split h p = .ok (h2, q)) :
    kindOk h2 ∧ typesStable h h2 := by
  unfold Node.split at hs
  rcases Res.bind_eq_ok.mp hs with ⟨node, hnode, hs⟩
  cases hmid : node.values[node.values.length / 2]? with
  | none => rw [hmid] at hs; cases hs
  | some mid =>
    rw [hmid] at hs
    have hnk : nodeKindOk node := hk node (readIdx_mem hnode)
    injection hs with hs
    injection hs with hs1 hs2
    subst hs1
    have hlow : nodeKindOk
        ({ node with
            values := (setSplitOff node.values mid.k).1
            next := if node.is_leaf then some h.length else node.next } :
          Node V) := by
      constructor
      · intro ht s hsm
        exact hnk.1 ht s (List.mem_filter.mp hsm).1
      · intro ht s hsm
        exact hnk.2 ht s (List.mem_filter.mp hsm).1
    have hgt : nodeKindOk
        (⟨node.t, (setSplitOff node.values mid.k).2,
          if node.is_leaf then node.next else none, node.max, false⟩ :
          Node V) := by
      constructor
      · intro ht s hsm
        exact hnk.1 ht s (List.mem_filter.mp hsm).1
      · intro ht s hsm
        exact hnk.2 ht s (List.mem_filter.mp hsm).1
    constructor
    · exact kindOk_append (kindOk_set hk hlow) hgt
    · have t1 : typesStable h (writeIdx h p
          ({ node with
              values := (setSplitOff node.values mid.k).1
              next := if node.is_leaf then some h.length else node.next } :
            Node V)) :=
        typesStable_set (readIdx_getElem hnode) rfl
      exact typesStable_trans t1 (typesStable_append _ _)

theorem get_separator_internal {h : Heap V} {p : Ptr} {other : Option Ptr}
    {sn : Slot V × Ptr}
    (hs : Node.get_separator h p other = .ok (some sn)) :
    sn.1.is_leaf = false := by
  cases other with
  | none => simp [Node.get_separator] at hs
  | some op =>
    unfold Node.get_separator at hs
    rcases Res.bind_eq_ok.mp hs with ⟨onode, honode, hs⟩
    cases hh : onode.values.head? with
    | none => rw [hh] at hs; cases hs
    | some s =>
      rw [hh] at hs
      injection hs with hs
      injection hs with hs
      rw [← hs]
      rfl

theorem repair_internal {kmax : Nat} {h : Heap V} {vs vs2 : List (Slot V)}
    {newp : Ptr}
    (hvs : ∀ x ∈ vs, x.is_leaf = false)
    (hr : repair kmax h vs newp = .ok vs2) :
    ∀ x ∈ vs2, x.is_leaf = false := by
  unfold repair at hr
  rcases Res.bind_eq_ok.mp hr with ⟨found, hf, hr⟩
  cases found with
  | some s =>
    simp only at hr
    injection hr with hr
    intro x hx
    rw [← hr] at hx
    rcases setReplace_mem hx with rfl | hxin
    · rfl
    · exact hvs x hxin
  | none =>
    simp only at hr
    have hr1 : ∀ x ∈ (setReplace vs (Slot.new_internal kmax (some newp))).1,
        x.is_leaf = false := by
      intro x hx
      rcases setReplace_mem hx with rfl | hxin
      · rfl
      · exact hvs x hxin
    cases hev : (setReplace vs (Slot.new_internal kmax (some newp))).2 with
    | none =>
      rw [hev] at hr
      injection hr with hr
      rw [← hr]
      exact hr1
    | some ev =>
      rw [hev] at hr
      rcases Res.bind_eq_ok.mp hr with ⟨evRaw, _, hr⟩
      rcases Res.bind_eq_ok.mp hr with ⟨dp, _, hr⟩
      rcases Res.bind_eq_ok.mp hr with ⟨dis, _, hr⟩
      cases hls : dis.values.getLast? with
      | none => rw [hls] at hr; cases hr
      | some ls =>
        rw [hls] at hr
        simp only at hr
        injection hr with hr
        intro x hx
        rw [← hr] at hx
        rcases setReplace_mem hx with rfl | hxin
        · rfl
        · exact hr1 x hxin

theorem insertAux_preserves {kmax : Nat} :
    ∀ (fuel : Nat) (h : Heap V) (p : Ptr) (value : Slot V)
      (h2 : Heap V) (r : Option (Slot V × Ptr)),
      kindOk h → value.is_leaf = true →
      insertAux kmax fuel h p value = .ok (h2, r) →
      kindOk h2 ∧ typesStable h h2 ∧
        ∀ s q, r = some (s, q) → s.is_leaf = false := by
  intro fuel
  induction fuel with
  | zero =>
    intro h p value h2 r _ _ hrun
    cases hrun
  | succ fuel ih =>
    intro h p value h2 r hk hv hrun
    simp only [insertAux] at hrun
    rcases Res.bind_eq_ok.mp hrun with ⟨node, hnode, hrun⟩
    rcases Res.bind_eq_ok.mp hrun with ⟨pre, hpre, hrun⟩
    have hpre2 : kindOk pre.1 ∧ typesStable h pre.1 := by
      by_cases halm : node.almost_full = true
      · rw [if_pos halm] at hpre
        rcases Res.bind_eq_ok.mp hpre with ⟨sp, hsp, hpre⟩
        rcases Res.bind_eq_ok.mp hpre with ⟨lower, hlow, hpre⟩
        cases hlast : lower.last_k with
        | none => rw [hlast] at hpre; cases hpre
        | some last =>
          rw [hlast] at hpre
          injection hpre with hpre
          have hs := split_preserves hk hsp
          rw [← hpre]
          exact ⟨hs.1, hs.2⟩
      · rw [if_neg halm] at hpre
        injection hpre with hpre
        rw [← hpre]
        exact ⟨hk, typesStable_refl h⟩
    obtain ⟨hkp, hts⟩ := hpre2
    rcases Res.bind_eq_ok.mp hrun with ⟨cur, hcur, hrun⟩
    rcases Res.bind_eq_ok.mp hrun with ⟨fc, hfc, hrun⟩
    cases fc with
    | none =>
      by_cases hleaf : cur.is_leaf = true
      · rw [if_pos hleaf] at hrun
        rcases Res.bind_eq_ok.mp hrun with ⟨sep, hsep, hok⟩
        injection hok with hok
        injection hok with hok1 hok2
        have hcnk := kindOk_of_read hkp hcur
        have hnew : nodeKindOk
            ({ cur with values := (setReplace cur.values value).1 } :
              Node V) := by
          constructor
          · intro ht s hsm
            rcases setReplace_mem hsm with rfl | hin
            · exact hv
            · exact hcnk.1 ht s hin
          · intro ht _ _
            rw [is_leaf_iff.mp hleaf] at ht
            cases ht
        refine ⟨hok1 ▸ kindOk_set hkp hnew,
          hok1 ▸ typesStable_trans hts
            (typesStable_set (readIdx_getElem hcur) rfl), ?_⟩
        intro s q hr
        rw [← hok2] at hr
        rw [hr] at hsep
        exact get_separator_internal hsep
      · rw [if_neg hleaf] at hrun
        cases hrun
    | some raw =>
      rcases Res.bind_eq_ok.mp hrun with ⟨cp, hcp, hrun⟩
      rcases Res.bind_eq_ok.mp hrun with ⟨res, hres, hrun⟩
      rcases Res.bind_eq_ok.mp hrun with ⟨h4, hh4, hrun⟩
      rcases Res.bind_eq_ok.mp hrun with ⟨sep, hsep, hok⟩
      injection hok with hok
      injection hok with hok1 hok2
      obtain ⟨hkr, htsr, hslot⟩ :=
        ih pre.1 cp value res.1 res.2 hkp hv hres
      have hh4p : kindOk h4 ∧ typesStable res.1 h4 := by
        cases hres2 : res.2 with
        | none =>
          rw [hres2] at hh4
          injection hh4 with hh4
          rw [← hh4]
          exact ⟨hkr, typesStable_refl _⟩
        | some sn =>
          rw [hres2] at hh4
          rcases Res.bind_eq_ok.mp hh4 with ⟨cur2, hcur2, hh4⟩
          rcases Res.bind_eq_ok.mp hh4 with ⟨vs2, hvs2, hh4⟩
          injection hh4 with hh4
          have hcleaf : cur.is_leaf = false := find_child_some_not_leaf hfc
          have hct : cur.t = .internal := not_is_leaf_iff.mp hcleaf
          have hcur2t : cur2.t = cur.t :=
            htsr.2 pre.2.2 cur cur2 (readIdx_getElem hcur)
              (readIdx_getElem hcur2)
          have hc2nk := kindOk_of_read hkr hcur2
          have hsn : sn.1.is_leaf = false :=
            hslot sn.1 sn.2 (by rw [hres2])
          have hvs1 : ∀ x ∈ (setReplace cur2.values sn.1).1,
              x.is_leaf = false := by
            intro x hx
            rcases setReplace_mem hx with rfl | hin
            · exact hsn
            · exact hc2nk.2 (hcur2t.trans hct) x hin
          have hmid : nodeKindOk
              ({ cur2 with values := (setReplace cur2.values sn.1).1 } :
                Node V) := by
            constructor
            · intro ht _ _
              rw [hcur2t, hct] at ht
              cases ht
            · intro _ s hsm
              exact hvs1 s hsm
          have hvs2i := repair_internal hvs1 hvs2
          have hfin : nodeKindOk
              ({ cur2 with values := vs2 } : Node V) := by
            constructor
            · intro ht _ _
              rw [hcur2t, hct] at ht
              cases ht
            · intro _ s hsm
              exact hvs2i s hsm
          have hlt2 : pre.2.2 < res.1.length :=
            (List.getElem?_eq_some.mp (readIdx_getElem hcur2)).1
          have hmidget :
              (writeIdx res.1 pre.2.2
                ({ cur2 with values := (setReplace cur2.values sn.1).1 } :
                  Node V))[pre.2.2]? =
              some { cur2 with values := (setReplace cur2.values sn.1).1 } :=
            List.getElem?_set_eq_of_lt _ hlt2
          rw [← hh4]
          refine ⟨kindOk_set (kindOk_set hkr hmid) hfin, ?_⟩
          have t1 : typesStable res.1
              (writeIdx res.1 pre.2.2
                ({ cur2 with values := (setReplace cur2.values sn.1).1 } :
                  Node V)) :=
            typesStable_set (readIdx_getElem hcur2) rfl
          have t2 : typesStable
              (writeIdx res.1 pre.2.2
                ({ cur2 with values := (setReplace cur2.values sn.1).1 } :
                  Node V))
              (writeIdx
                (writeIdx res.1 pre.2.2
                  ({ cur2 with values := (setReplace cur2.values sn.1).1 } :
                    Node V))
                pre.2.2 ({ cur2 with values := vs2 } : Node V)) :=
            typesStable_set hmidget rfl
          exact typesStable_trans t1 t2
      refine ⟨hok1 ▸ hh4p.1,
        hok1 ▸ typesStable_trans hts (typesStable_trans htsr hh4p.2), ?_⟩
      intro s q hr
      rw [← hok2] at hr
      rw [hr] at hsep
      exact get_separator_internal hsep

theorem insert_preserves {kmax fuel : Nat} {t t2 : BTreeS V} {entry : Slot V}
    (hk : kindOk t.heap)
    (hrun : BTree.insert kmax fuel t entry = .ok t2) : kindOk t2.heap := by
  unfold BTree.insert at hrun
  by_cases hent : entry.is_leaf = false
  · rw [if_pos hent] at hrun
    cases hrun
  · rw [if_neg hent] at hrun
    have hv : entry.is_leaf = true := by simpa using hent
    have main : ∀ (h0 : Heap V) (rp : Ptr), kindOk h0 →
        (Res.bind (insertAux kmax fuel h0 rp entry) fun res =>
          match res.2 with
          | none => .ok (⟨res.1, some rp, t.max⟩ : BTreeS V)
          | some sn =>
            Res.bind (getRight sn.1.payload) fun sRaw =>
            if sRaw ≠ some rp then .panic
            else
              Res.bind (readIdx res.1 rp) fun oldRoot =>
              let h2 := writeIdx res.1 rp { oldRoot with is_root := false }
              Res.bind (repair kmax h2 (setReplace [] sn.1).1 sn.2) fun vs =>
              let newRoot : Node V := ⟨.internal, vs, none, t.max, true⟩
              .ok ⟨h2 ++ [newRoot], some h2.length, t.max⟩) = .ok t2 →
        kindOk t2.heap := by
      intro h0 rp hk0 hrun
      rcases Res.bind_eq_ok.mp hrun with ⟨res, hres, hrun⟩
      obtain ⟨hkr, _, hslot⟩ :=
        insertAux_preserves fuel h0 rp entry res.1 res.2 hk0 hv hres
      cases hres2 : res.2 with
      | none =>
        rw [hres2] at hrun
        injection hrun with hrun
        rw [← hrun]
        exact hkr
      | some sn =>
        rw [hres2] at hrun
        rcases Res.bind_eq_ok.mp hrun with ⟨sRaw, _, hrun⟩
        by_cases hne : sRaw ≠ some rp
        · rw [if_pos hne] at hrun
          cases hrun
        · rw [if_neg hne] at hrun
          rcases Res.bind_eq_ok.mp hrun with ⟨oldRoot, holdr, hrun⟩
          rcases Res.bind_eq_ok.mp hrun with ⟨vs, hvs, hrun⟩
          injection hrun with hrun
          have hold2 : nodeKindOk
              ({ oldRoot with is_root := false } : Node V) := by
            have hnk := kindOk_of_read hkr holdr
            exact ⟨fun ht s hs => hnk.1 ht s hs, fun ht s hs => hnk.2 ht s hs⟩
          have hk2 : kindOk (writeIdx res.1 rp
              ({ oldRoot with is_root := false } : Node V)) :=
            kindOk_set hkr hold2
          have hsn : sn.1.is_leaf = false := hslot sn.1 sn.2 (by rw [hres2])
          have hin : ∀ x ∈ (setReplace ([] : List (Slot V)) sn.1).1,
              x.is_leaf = false := by
            intro x hx
            simp [setReplace] at hx
            rw [hx]
            exact hsn
          have hvsi := repair_internal hin hvs
          have hroot : nodeKindOk
              (⟨.internal, vs, none, t.max, true⟩ : Node V) := by
            refine ⟨fun ht => ?_, fun _ s hs => hvsi s hs⟩
            cases ht
          rw [← hrun]
          exact kindOk_append hk2 hroot
    cases hroot : t.root with
    | some rp =>
      rw [hroot] at hrun
      exact main t.heap rp hk hrun
    | none =>
      rw [hroot] at hrun
      have hn0 : nodeKindOk
          ({ Node.new_leaf t.max with is_root := true } : Node V) := by
        constructor
        · intro _ s hs
          cases hs
        · intro ht
          cases ht
      exact main _ t.heap.length (kindOk_append hk hn0) hrun

theorem deleteAux_preserves :
    ∀ (fuel : Nat) (h : Heap V) (p : Ptr) (slot : Slot V)
      (h2 : Heap V) (b : Bool),
      kindOk h → deleteAux fuel h p slot = .ok (h2, b) → kindOk h2 := by
  intro fuel
  induction fuel with
  | zero =>
    intro h p slot h2 b _ hrun
    cases hrun
  | succ fuel ih =>
    intro h p slot h2 b hk hrun
    simp only [deleteAux] at hrun
    rcases Res.bind_eq_ok.mp hrun with ⟨node, hnode, hrun⟩
    rcases Res.bind_eq_ok.mp hrun with ⟨fc, hfc, hrun⟩
    cases fc with
    | some raw =>
      rcases Res.bind_eq_ok.mp hrun with ⟨cp, _, hrun⟩
      exact ih h cp slot h2 b hk hrun
    | none =>
      by_cases hleaf : node.is_leaf = true
      · rw [if_pos hleaf] at hrun
        injection hrun with hrun
        injection hrun with hrun1 hrun2
        have hnk := kindOk_of_read hk hnode
        have hnew : nodeKindOk
            ({ node with values := (setRemove node.values slot.k).1 } :
              Node V) :=
          ⟨fun ht s hs => hnk.1 ht s (setRemove_subset hs),
            fun ht s hs => hnk.2 ht s (setRemove_subset hs)⟩
        rw [← hrun1]
        exact kindOk_set hk hnew
      · rw [if_neg hleaf] at hrun
        injection hrun with hrun
        injection hrun with hrun1 hrun2
        rw [← hrun1]
        exact hk

theorem getAux_left :
    ∀ (fuel : Nat) (h : Heap V) (p : Ptr) (slot s : Slot V),
      kindOk h → getAux fuel h p slot = .ok (some s) → s.is_leaf = true := by
  intro fuel
  induction fuel with
  | zero =>
    intro h p slot s _ hrun
    cases hrun
  | succ fuel ih =>
    intro h p slot s hk hrun
    simp only [getAux] at hrun
    rcases Res.bind_eq_ok.mp hrun with ⟨node, hnode, hrun⟩
    rcases Res.bind_eq_ok.mp hrun with ⟨fc, hfc, hrun⟩
    cases fc with
    | some raw =>
      rcases Res.bind_eq_ok.mp hrun with ⟨cp, _, hrun⟩
      exact ih h cp slot s hk hrun
    | none =>
      by_cases hleaf : node.is_leaf = true
      · rw [if_pos hleaf] at hrun
        injection hrun with hrun
        have hnk := kindOk_of_read hk hnode
        exact hnk.1 (is_leaf_iff.mp hleaf) s (setGet_mem hrun)
      · rw [if_neg hleaf] at hrun
        injection hrun with hrun
        cases hrun

end KindLemmas

section ClaimAmended

variable {V : Type}

/-- Claim C3, amended.  Whenever insert repairs a parent after a child
split, the separator slot stored for the split (lower-half) child is the
one built by `Node::get_separator`: its key is the NEW SIBLING's minimum
key (and its pointer the original child), not the child's own maximum key
incremented; the child's-last-key formula (incremented by one step for a
Leaf, unchanged for an Internal child) is applied only to the child
displaced from the `K::MAX` separator slot during the repair. -/
theorem c3_separator_amended (h : Heap V) (p op : Ptr) (n : Node V)
    (x : Slot V) (xs : List (Slot V))
    (hread : h[op]? = some n) (hvals : n.values = x :: xs) :
    Node.get_separator h p (some op) =
      .ok (some (Slot.new_internal x.k (some p), op)) := by
  simp [Node.get_separator, readIdx, hread, hvals]

theorem c3_separator_amended_witness :
    Node.get_separator (V := Nat)
        [⟨.leaf, [Slot.new_leaf 5 55], none, 4, false⟩] 7 (some 0) =
      .ok (some (Slot.new_internal 5 (some 7), 0)) :=
  c3_separator_amended _ 7 0 _ (Slot.new_leaf 5 55) [] rfl rfl

/-- Claim C8, amended.  Slot ordering (the `Ord`/`PartialOrd` impls) is
defined by key only: the comparison of two slots equals the comparison of
their keys, and slots with equal keys compare equal, so they are the same
identity for membership in a node's ordered set — `BTreeSet::replace` on a
key-sorted duplicate-free slot list evicts the slot already carrying the
key and keeps the size unchanged, regardless of the payloads.  However the
derived structural equality (`==`) also compares payloads, so two slots
with equal keys but different payloads are not `==` (see the
counterexample). -/
theorem c8_key_only_comparison {B : Type} :
    (∀ s t : Slot B, Slot.cmp s t = compare s.k t.k) ∧
    (∀ s t : Slot B, s.k = t.k → Slot.cmp s t = .eq) ∧
    (∀ (vs : List (Slot V)) (s x : Slot V),
      vs.Pairwise (fun a b => a.k < b.k) → x ∈ vs → x.k = s.k →
      (setReplace vs s).2 = some x ∧
        (setReplace vs s).1.length = vs.length) := by
  refine ⟨fun s t => rfl, fun s t hk => ?_, setReplace_of_mem⟩
  simp [Slot.cmp, hk, Nat.compare_eq_eq]

theorem c8_key_only_comparison_witness :
    Slot.cmp (Slot.new_leaf 4 (2 : Nat)) (Slot.new_internal 4 none) = .eq ∧
    (setReplace [Slot.new_leaf 1 (2 : Nat)] (Slot.new_leaf 1 3)).2 =
        some (Slot.new_leaf 1 2) ∧
    (setReplace [Slot.new_leaf 1 (2 : Nat)] (Slot.new_leaf 1 3)).1.length =
        [Slot.new_leaf 1 (2 : Nat)].length :=
  ⟨(c8_key_only_comparison (V := Nat)).2.1 _ _ rfl,
    ((c8_key_only_comparison (B := Nat)).2.2
      [Slot.new_leaf 1 2] (Slot.new_leaf 1 3) (Slot.new_leaf 1 2)
      (by simp) (by simp) rfl).1,
    ((c8_key_only_comparison (B := Nat)).2.2
      [Slot.new_leaf 1 2] (Slot.new_leaf 1 3) (Slot.new_leaf 1 2)
      (by simp) (by simp) rfl).2⟩

/-- Claim C9 (small fanouts panic).  For every tree created with
`max ≤ 1`, the very first insert panics: the empty root is already
`almost_full` (`0 >= max / 2 = 0`), and `split`'s `expect` of a median
slot fails on the empty slot list.  For `max = 2` or `max = 3`
(`max / 2 = 1`), the first insert succeeds but the second insert of a
distinct key panics: the pre-emptive split of the one-slot root moves its
only slot into the new sibling (the median is slot index `1 / 2 = 0`, and
`split_off` moves every slot at or above it), leaving the lower node
empty, so the subsequent `expect` of a last key fails.  Hence insert can
only "always succeed" when `max ≥ 4`.  Fuel is arbitrary positive: the
panic is reached on the first descent step. -/
theorem c9_small_fanout_panics {V : Type} (kmax max k1 k2 fuel : Nat)
    (v v1 v2 : V) :
    (max ≤ 1 →
      BTree.insert kmax (fuel + 1) (BTree.new max)
        (Slot.new_leaf k1 v) = .panic) ∧
    ((max = 2 ∨ max = 3) → k1 ≠ k2 →
      Res.bind
        (BTree.insert kmax (fuel + 1) (BTree.new max)
          (Slot.new_leaf k1 v1))
        (fun t => BTree.insert kmax (fuel + 1) t (Slot.new_leaf k2 v2)) =
      .panic) := by
  constructor
  · intro hmax
    have hdiv : max / 2 = 0 := Nat.div_eq_of_lt (by omega)
    simp [BTree.insert, BTree.new, Slot.new_leaf, Slot.is_leaf, insertAux,
      readIdx, Node.new_leaf, Node.almost_full, hdiv, Node.split,
      setSplitOff]
  · rintro (rfl | rfl) hne <;>
      simp [BTree.insert, BTree.new, Slot.new_leaf, Slot.is_leaf, insertAux,
        readIdx, writeIdx, Node.new_leaf, Node.almost_full, Node.find_child,
        Node.is_leaf, Node.get_separator, setReplace, Node.split,
        setSplitOff, Node.last_k]

theorem c9_small_fanout_panics_witness :
    (BTree.insert (V := Nat) 255 100 (BTree.new 1)
        (Slot.new_leaf 5 50) = .panic) ∧
    (Res.bind
        (BTree.insert (V := Nat) 255 100 (BTree.new 2)
          (Slot.new_leaf 1 10))
        (fun t => BTree.insert 255 100 t (Slot.new_leaf 2 20)) =
      .panic) :=
  ⟨(c9_small_fanout_panics 255 1 5 2 99 50 50 50).1 (by decide),
    (c9_small_fanout_panics 255 2 1 2 99 10 10 20).2 (Or.inl rfl)
      (by decide)⟩

/-- Claim C10 (kind consistency).  Every operation preserves the invariant
that every slot stored in a Leaf node carries a value payload and every
slot stored in an Internal node carries a child-node reference
(`kindOk`): from a kind-consistent state, any heap produced by a
completed `insert` or `delete` is again kind-consistent (`get` does not
modify the heap at all), and whenever `get` returns a slot, that slot
carries a value payload, never a child reference. -/
theorem c10_kind_consistency {V : Type} (kmax fuel key : Nat)
    (t : BTreeS V) (entry : Slot V) (hk : kindOk t.heap) :
    (∀ t2, BTree.insert kmax fuel t entry = .ok t2 → kindOk t2.heap) ∧
    (∀ r, BTree.delete fuel t key = .ok r → kindOk r.1.heap) ∧
    (∀ s, BTree.get fuel t key = .ok (some s) → s.is_leaf = true) := by
  refine ⟨fun t2 hrun => insert_preserves hk hrun,
    fun r hrun => ?_, fun s hrun => ?_⟩
  · unfold BTree.delete at hrun
    cases hroot : t.root with
    | none =>
      rw [hroot] at hrun
      injection hrun with hrun
      rw [← hrun]
      exact hk
    | some rp =>
      rw [hroot] at hrun
      rcases Res.bind_eq_ok.mp hrun with ⟨db, hdb, hrun⟩
      injection hrun with hrun
      rw [← hrun]
      exact deleteAux_preserves fuel t.heap rp _ db.1 db.2 hk hdb
  · unfold BTree.get at hrun
    cases hroot : t.root with
    | none =>
      rw [hroot] at hrun
      injection hrun with hrun
      cases hrun
    | some rp =>
      rw [hroot] at hrun
      exact getAux_left fuel t.heap rp _ s hk hrun

theorem c10_kind_consistency_witness :
    (∀ t2, BTree.insert (V := Nat) 255 100
        ⟨[⟨.leaf, [Slot.new_leaf 1 5], none, 8, true⟩], some 0, 8⟩
        (Slot.new_leaf 2 6) = .ok t2 → kindOk t2.heap) ∧
    (∀ r, BTree.delete (V := Nat) 100
        ⟨[⟨.leaf, [Slot.new_leaf 1 5], none, 8, true⟩], some 0, 8⟩ 1 =
        .ok r → kindOk r.1.heap) ∧
    (∀ s, BTree.get (V := Nat) 100
        ⟨[⟨.leaf, [Slot.new_leaf 1 5], none, 8, true⟩], some 0, 8⟩ 1 =
        .ok (some s) → s.is_leaf = true) :=
  c10_kind_consistency 255 100 1
    ⟨[⟨.leaf, [Slot.new_leaf 1 5], none, 8, true⟩], some 0, 8⟩
    (Slot.new_leaf 2 6)
    (by
      intro n hn
      simp at hn
      subst hn
      constructor
      · intro _ s hs
        simp at hs
        subst hs
        rfl
      · intro ht
        cases ht)

end ClaimAmended

section ClaimEvaluations

/-- Claim C1 (round trip).  The code refutes the claimed property: with
fanout `max = 8` (comfortably above the `max ≥ 4` viability threshold) and
keys `0..7` inserted in the order 0,1,2,3,5,6,7,4 — each key inserted once,
key 4 last with value 14 — the subsequent `get(4)` returns `None` instead
of `Some 14`.  (During the split triggered by inserting 7, the separator
repair displaces leaf `{2,3}` from the `K::MAX` slot and re-keys it as an
exclusive bound 4 = 3+1; the later insert of key 4 is then routed past that
leaf by the pre-emptive root split, while lookup routes into it and
misses.)
The run itself reports no panic: the `.ok` outcome shows insertion
completed and the lookup cleanly returned `None`. -/
theorem c1_lost_key_eval :
    Res.bind (runInserts (V := Nat) 255 8
        [(0, 10), (1, 11), (2, 12), (3, 13),
         (5, 15), (6, 16), (7, 17), (4, 14)])
      (fun t => BTree.get 100 t 4) = .ok none := by rfl

/-- Claim C2 (upsert, not duplication).  The code refutes the invariant:
with `max = 8`, inserting keys 1,2,3,4 and then key 2 again (value 22)
makes the pre-emptive leaf split route the re-inserted key 2 into the new
sibling (because `value.0 >= last` uses `>=`, and 2 equals the lower
half's last key), while the old slot `(2, 12)` stays in the lower leaf:
afterwards two leaf slots carry key 2 across the tree. -/
theorem c2_duplicate_key_eval :
    Res.bind (runInserts (V := Nat) 255 8
        [(1, 11), (2, 12), (3, 13), (4, 14), (2, 22)])
      (fun t => .ok (leafKeyCount t 2)) = .ok 2 := by rfl

/-- Claim C3 counterexample.  With `max = 4`, after inserting keys
10,20,30,40, the internal node at heap index 3 stores the separator slot
`(30, →1)` for the split child at index 1 — a Leaf whose maximum key is 20.
The claim says the separator slot stored for a split Leaf child carries the
child's maximum key incremented by one step, i.e. key 21; the slot actually
stored by the repair (`node.replace(s)` with `s` from `Node::get_separator`)
carries key 30, the new sibling's first key, refuting the claim.  (The
incremented key 21 appears only on the second slot, added later for the
child displaced from the `K::MAX` separator.) -/
theorem c3_separator_counterexample :
    (Res.bind (runInserts (V := Nat) 255 4
        [(10, 100), (20, 200), (30, 300), (40, 400)])
      (fun t => .ok ((t.heap[3]?).map (fun n => n.values),
        (t.heap[1]?).map (fun n => (n.t, n.last_k)))) =
    .ok (some [Slot.new_internal 21 (some 1), Slot.new_internal 30 (some 1),
               Slot.new_internal 255 (some 4)],
         some (.leaf, some 20))) ∧ (30 : Nat) ≠ 20 + 1 := by
  constructor
  · rfl
  · decide

/-- Claim C4 (new-child creation on routing miss).  The code refutes the
claim: the creation of a new child on a routing miss is commented out in
`BTree::_insert` and replaced by `unreachable!()`.  With `max = 4`, after
inserting 10,20,30,40 (which succeeds), re-inserting key 20 descends into
the internal node `{(20, →0)}` whose every separator is ≤ 20, `find_child`
returns `None`, and the insert panics instead of creating a child and
completing. -/
theorem c4_unreachable_eval :
    runInserts (V := Nat) 255 4
        [(10, 100), (20, 200), (30, 300), (40, 400)] ≠ .panic ∧
    runInserts (V := Nat) 255 4
        [(10, 100), (20, 200), (30, 300), (40, 400), (20, 222)] =
      .panic := by
  constructor
  · decide
  · rfl

/-- Claim C5 (root growth).  The code refutes the claim: with `max = 4`,
inserting keys 255, 254, 253 splits the leaf root; the separator returned
for the old root carries key 255 (the sibling's first key), so inserting
the sibling's `(K::MAX, →sibling)` slot evicts it, and re-inserting the
displaced old root's separator (also key 255) evicts the sibling slot in
turn — the logged `SLOT DISAPPEARING`.  The new internal root (index 2)
does get `is_root = true` and the old root is demoted, but it holds exactly
ONE slot (referencing only the old root), not the claimed two; the sibling
holding key 255 is unreachable from the root. -/
theorem c5_one_slot_root_eval :
    Res.bind (runInserts (V := Nat) 255 4 [(255, 1), (254, 2), (253, 3)])
      (fun t => .ok (t.root,
        (t.heap[2]?).map (fun n => (n.t, n.is_root, n.values.length)),
        (t.heap[0]?).map (fun n => n.is_root))) =
    .ok (some 2, some (.internal, true, 1), some false) := by rfl

/-- Claim C6 (ordered scan completeness).  The code refutes the claim: in
the duplicate-key state of C2 (insert 1,2,3,4 then 2 again with value 22),
the scan from the leftmost leaf along the sibling chain yields the stale
pair (2, 12) and the current pair (2, 22) — key 2 twice — so the output is
neither duplicate-free nor strictly ascending, and contains a pair that is
not a current binding. -/
theorem c6_scan_duplicate_eval :
    Res.bind (runInserts (V := Nat) 255 8
        [(1, 11), (2, 12), (3, 13), (4, 14), (2, 22)])
      (fun t => BTree.scan 100 t) =
      .ok [(1, 11), (2, 12), (2, 22), (3, 13), (4, 14)] ∧
    ([(1, 11), (2, 12), (2, 22), (3, 13), (4, 14)].map
        (fun p => (Prod.fst p : Nat))).count 2 = 2 := by
  constructor
  · rfl
  · decide

/-- Claim C7 (delete semantics).  The code refutes the final conjunct of
the claim: with `max = 4`, after inserting (255,1), (254,2), (253,3),
`delete(253)` succeeds (returns `true`), yet `get(255)` returns `None`
although key 255 was inserted, never overwritten and never deleted — it was
already unretrievable because the root split left the root with a single
exclusive separator keyed 255 (see C5), and deletion of 253 does not
restore it.  So not every other previously-inserted, non-deleted key
remains retrievable after a successful delete. -/
theorem c7_delete_eval :
    Res.bind (runInserts (V := Nat) 255 4 [(255, 1), (254, 2), (253, 3)])
      (fun t =>
        Res.bind (BTree.delete 100 t 253) fun tb =>
        Res.bind (BTree.get 100 tb.1 255) fun a =>
        .ok (tb.2, a)) = .ok (true, none) := by rfl

/-- Claim C8 counterexample.  Two slots with equal key 1 and different
value payloads: `Slot`'s `Ord` comparison (key only) finds them equal, but
the derived `PartialEq`/`Eq` (`==`, which compares the payload as well)
does not — refuting the claim that slots with equal keys are equal
regardless of their payloads. -/
theorem c8_beq_counterexample :
    Slot.cmp (Slot.new_leaf 1 (2 : Nat)) (Slot.new_leaf 1 3) = .eq ∧
    Slot.beq (Slot.new_leaf 1 (2 : Nat)) (Slot.new_leaf 1 3) = false := by
  decide

end ClaimEvaluations

end BPlus
